import Mathlib

/-!
Shallow embedding of the mongory-go matcher core
(`src/cgo/binding/src`, C sources) and proofs about the claims of the
specification.

Conventions of the embedding:

* A `mongory_value` (`foundations/value.c`) is modelled by `MgValue`.
  Tables (string-keyed maps) are association lists in iteration order;
  the C hash table iterates buckets in an order that depends on hashing,
  but every property proved here is insensitive to iteration order.
  The C `double` payload is modelled by an exact rational; no claim
  exercises floating-point rounding.  `Regex`, `Pointer` and
  `Unsupported` payloads are opaque to every operation that the claims
  touch (their comparison always fails), so the pointer payloads are
  dropped.
* A missing value (a C `NULL` `mongory_value*`, e.g. a failed field
  lookup) is `Option.none`; evaluation takes an `Option MgValue`.
* The compiled matcher tree is `Matcher`; construction
  (`mongory_matcher_*_new`) is `compileSub` and friends, returning
  `none` exactly where the C constructors return `NULL` after recording
  an error.  The lazily built array-record child of a literal matcher
  (`literal_matcher.c`) is compiled eagerly into the `Option Matcher`
  field of the node: the construction depends only on the stored
  condition, so the lazily built matcher is identical, and a `none`
  field reproduces the C behaviour of returning `false` when
  `mongory_matcher_array_record_new` yields `NULL`.
* The global configuration is the default one of `foundations/config.c`:
  no shallow-convert hook, no custom-matcher adapter, and the default
  regex adapter, which matches nothing.
-/

/-- Discriminated union of `mongory_value` (`foundations/value.c`,
`include/mongory-core/foundations/value.h`). -/
inductive MgValue where
  | null
  | bool (b : Bool)
  | int (i : Int)
  | double (d : ℚ)
  | str (s : String)
  | arr (xs : List MgValue)
  | table (kvs : List (String × MgValue))
  | regex (pat : String)
  | pointer
  | unsupported

/-- Type test corresponding to `value->type == MONGORY_TYPE_ARRAY`. -/
def MgValue.isArrV : MgValue → Bool
  | .arr _ => true
  | _ => false

/-- Type test corresponding to `value->type == MONGORY_TYPE_TABLE`. -/
def MgValue.isTableV : MgValue → Bool
  | .table _ => true
  | _ => false

/-- Type test corresponding to `value->type == MONGORY_TYPE_NULL`. -/
def MgValue.isNullV : MgValue → Bool
  | .null => true
  | _ => false

mutual

/-- Polymorphic comparison `a->comp(a, b)` of `foundations/value.c`:
`some .lt / .eq / .gt` are the C results `-1 / 0 / 1`, and `none` is the
sentinel `mongory_value_compare_fail` (97).  Dispatch is on the first
argument's type, exactly as the C assigns one compare function per
wrapped type: Int and Double compare numerically with each other,
Strings lexicographically, Bools with `false < true`, Arrays first by
size and then elementwise with Null below non-null
(`mongory_value_array_compare`), Tables and the opaque types always fail
(`mongory_value_table_compare`, `mongory_value_generic_ptr_compare`). -/
def mgCompare : MgValue → MgValue → Option Ordering
  | .null, b => match b with
    | .null => some .eq
    | _ => none
  | .bool x, b => match b with
    | .bool y => some (compare x y)
    | _ => none
  | .int x, b => match b with
    | .int y => some (compare x y)
    | .double q => some (compare (x : ℚ) q)
    | _ => none
  | .double p, b => match b with
    | .double q => some (compare p q)
    | .int y => some (compare p (y : ℚ))
    | _ => none
  | .str s, b => match b with
    | .str t => some (compare s t)
    | _ => none
  | .arr xs, b => match b with
    | .arr ys =>
      if xs.length ≠ ys.length then some (compare xs.length ys.length)
      else mgCompareList xs ys
    | _ => none
  | .table _, _ => none
  | .regex _, _ => none
  | .pointer, _ => none
  | .unsupported, _ => none

/-- Elementwise loop of `mongory_value_array_compare` for arrays of equal
size: a Null element equals a Null element, is below any non-null
element, and otherwise the elements' own comparison decides, with any
failure propagated. -/
def mgCompareList : List MgValue → List MgValue → Option Ordering
  | [], _ => some .eq
  | _ :: _, [] => some .eq
  | x :: xs, y :: ys =>
    match x, y with
    | .null, .null => mgCompareList xs ys
    | .null, _ => some .lt
    | _, .null => some .gt
    | x, y =>
      match mgCompare x y with
      | none => none
      | some .eq => mgCompareList xs ys
      | some o => some o

end

/-- Whitespace recognised by `strtol` (C `isspace`). -/
def isSpaceChar (c : Char) : Bool :=
  c = ' ' || c = '\t' || c = '\n' || c = '\r' ||
  c = Char.ofNat 11 || c = Char.ofNat 12

/-- Accumulator form of base-10 digit-string evaluation. -/
def natOfDigitsAux : List Char → Nat → Nat
  | [], acc => acc
  | c :: cs, acc => natOfDigitsAux cs (acc * 10 + (c.toNat - 48))

/-- Parsing of `mongory_try_parse_int` (`foundations/utils.c`): `strtol`
in base 10 (optional leading whitespace, one optional sign, at least one
digit), rejecting the string when any character follows the number or
when the value falls outside the C `int` range.  A value beyond the
range of `long` makes `strtol` clamp and set `ERANGE`, which the C also
rejects; parsing with exact integers gives the same verdict because such
values are outside the `int` range as well. -/
def tryParseIntCore (s : String) : Option Int :=
  let cs := s.data.dropWhile isSpaceChar
  let signed : Int × List Char :=
    match cs with
    | '-' :: rest => (-1, rest)
    | '+' :: rest => (1, rest)
    | _ => (1, cs)
  let digits := signed.2.takeWhile Char.isDigit
  let rest := signed.2.dropWhile Char.isDigit
  if digits.isEmpty then none
  else if !rest.isEmpty then none
  else
    let v : Int := signed.1 * (natOfDigitsAux digits 0 : Int)
    if v < -(2 ^ 31) || v > 2 ^ 31 - 1 then none else some v

/-- Entry point `mongory_try_parse_int(key, out)` of
`foundations/utils.c`.  The function first rejects a `NULL` or empty
`key`, then rejects a `NULL` `out` pointer, and only then parses; the
`outGiven` flag records whether the caller passed a valid `out`
pointer. -/
def mongoryTryParseInt (key : String) (outGiven : Bool) : Bool :=
  if key.data.isEmpty then false
  else if !outGiven then false
  else (tryParseIntCore key).isSome

/-- Lookup `table->get` of `foundations/table.c`; keys in a table are
unique, so the first hit is the entry. -/
def tlookup : List (String × MgValue) → String → Option MgValue
  | [], _ => none
  | (k, v) :: rest, key => if k = key then some v else tlookup rest key

/-- Update `table->set` of `foundations/table.c`: replace the value of an
existing key, otherwise append the new entry. -/
def tset : List (String × MgValue) → String → MgValue → List (String × MgValue)
  | [], key, v => [(key, v)]
  | (k, w) :: rest, key, v =>
    if k = key then (k, v) :: rest else (k, w) :: tset rest key v

/-- Merge `mongory_table_merge` of `foundations/table.c`: `set` every
entry of the second table into the first. -/
def tmerge : List (String × MgValue) → List (String × MgValue) → List (String × MgValue)
  | t, [] => t
  | t, (k, v) :: rest => tmerge (tset t k v) rest

/-- Index resolution of `mongory_matcher_field_match`
(`matchers/literal_matcher.c`) on an array record: a negative index `i`
with `-i > count` is out of bounds, otherwise it is resolved to
`count + i`; a resolved index at or beyond `count` is out of bounds,
otherwise the element there is returned. -/
def arrayFieldGet (xs : List MgValue) (i : Int) : Option MgValue :=
  let n : Int := xs.length
  if i < 0 then
    if -i > n then none
    else if n + i ≥ n then none
    else xs[(n + i).toNat]?
  else if i ≥ n then none
  else xs[i.toNat]?

/-- Compiled matcher node (`include/mongory-core/matchers/matcher.h` and
the constructors of `matchers/*.c`).  `fieldM`, `notM` and `sizeM` are
the literal-wrapper shapes of `literal_matcher.c`: a delegate child for
the non-array path and an `Option`al array-record child
(`array_record_matcher.c`) for the array path.  `andC` covers both the
implicit-AND table condition (`Condition`) and `$and`, which share
`mongory_matcher_and_match`. -/
inductive Matcher where
  | alwaysTrue
  | alwaysFalse
  | eqM (c : MgValue)
  | neM (c : MgValue)
  | gtM (c : MgValue)
  | gteM (c : MgValue)
  | ltM (c : MgValue)
  | lteM (c : MgValue)
  | inM (elems : List MgValue)
  | ninM (elems : List MgValue)
  | existsM (b : Bool)
  | presentM (b : Bool)
  | regexM (c : MgValue)
  | fieldM (f : String) (d : Matcher) (a : Option Matcher)
  | notM (d : Matcher) (a : Option Matcher)
  | sizeM (d : Matcher) (a : Option Matcher)
  | andC (cs : List Matcher)
  | orC (cs : List Matcher)
  | elemC (cs : List Matcher)
  | everyC (cs : List Matcher)

/-- Stand-in for the `$in`/`$nin` priority `1 + log(n+1)/log(1.5)`
computed in `double` by `mongory_matcher_in_new`
(`matchers/inclusion_matcher.c` with `mongory_log` of
`foundations/utils.c`).  Floating-point transcendentals are outside this
embedding; that one priority is replaced by an explicit monotone
integer-valued stand-in.  No claim of this development depends on its
exact values: the sortedness results below hold for every key function,
and every concrete example avoids ties that involve `$in`/`$nin`. -/
def inNinPriorityN (n : Nat) : Nat := 1 + Nat.log2 (n + 1) * 2

mutual

/-- Priority of a node, as assigned by the constructors:
`Eq`/`Ne` 1.0, the order comparisons and `Exists`/`Present` 2.0,
`Regex` 20.0, `In`/`Nin` logarithmic in the set size, the
literal-wrapper shapes 1.0 plus the delegate's priority
(the lazy array-record child does not contribute), `And`/`Or`/`Condition`
2.0 plus the children's sum, `ElemMatch`/`Every` 3.0 plus the children's
sum, and the always-true/false leaves keep the base 1.0.  Every
priority the constructors assign is a small integer (except the
modelled `$in`/`$nin` one), represented here exactly in `Nat`. -/
def priority : Matcher → Nat
  | .alwaysTrue => 1
  | .alwaysFalse => 1
  | .eqM _ => 1
  | .neM _ => 1
  | .gtM _ => 2
  | .gteM _ => 2
  | .ltM _ => 2
  | .lteM _ => 2
  | .inM elems => inNinPriorityN elems.length
  | .ninM elems => inNinPriorityN elems.length
  | .existsM _ => 2
  | .presentM _ => 2
  | .regexM _ => 20
  | .fieldM _ d _ => 1 + priority d
  | .notM d _ => 1 + priority d
  | .sizeM d _ => 1 + priority d
  | .andC cs => 2 + prioritySum cs
  | .orC cs => 2 + prioritySum cs
  | .elemC cs => 3 + prioritySum cs
  | .everyC cs => 3 + prioritySum cs

/-- Sum of child priorities, `mongory_matcher_calculate_priority`
(`matchers/composite_matcher.c`). -/
def prioritySum : List Matcher → Nat
  | [] => 0
  | c :: cs => priority c + prioritySum cs

end

/-- Integer sort key `(size_t)(matcher->priority * 10000)` of
`mongory_matcher_calc_priority` (`matchers/composite_matcher.c`); on
the integer-valued priorities above the C truncating cast is exact. -/
def matcherKey (m : Matcher) : Nat := 10000 * priority m

/-- Merge step `mongory_array_merge_sort_finalize`
(`foundations/array.c`): while both runs are nonempty the element with
the strictly smaller key is taken from the left run, otherwise the right
run's element is taken; the leftover run is then appended.  The fuel
argument only expresses the two-list recursion structurally; the entry
point passes the combined length, which is exactly the number of steps
the loop takes, so the fuel never runs out. -/
def mergeByAux (key : Matcher → Nat) : Nat → List Matcher → List Matcher → List Matcher
  | 0, l, r => l ++ r
  | _ + 1, [], r => r
  | _ + 1, a :: l, [] => a :: l
  | n + 1, a :: l, b :: r =>
    if key a < key b then a :: mergeByAux key n l (b :: r)
    else b :: mergeByAux key n (a :: l) r

/-- Entry to the merge step with sufficient fuel. -/
def mergeBy (key : Matcher → Nat) (l r : List Matcher) : List Matcher :=
  mergeByAux key (l.length + r.length) l r

/-- Merge sort `mongory_array_merge_sort` (`foundations/array.c`): split
at `count / 2` and merge the recursively sorted halves.  The fuel
argument only expresses the halving recursion structurally; the entry
point passes the list length, which bounds the recursion depth. -/
def mergeSortByAux (key : Matcher → Nat) : Nat → List Matcher → List Matcher
  | 0, l => l
  | n + 1, l =>
    if l.length ≤ 1 then l
    else
      mergeBy key (mergeSortByAux key n (l.take (l.length / 2)))
        (mergeSortByAux key n (l.drop (l.length / 2)))

/-- Entry to the merge sort with sufficient fuel. -/
def mergeSortBy (key : Matcher → Nat) (l : List Matcher) : List Matcher :=
  mergeSortByAux key l.length l

/-- Child reordering `mongory_matcher_sort_matchers`
(`matchers/composite_matcher.c`): merge sort by the integer priority
key. -/
def sortMatchers (l : List Matcher) : List Matcher := mergeSortBy matcherKey l

/-- Membership scan `mongory_array_includes` (`foundations/array.c`):
some element of the array compares equal to the probe; the element is
the first comparison argument. -/
def arrayIncludes (elems : List MgValue) (x : MgValue) : Bool :=
  elems.any fun item =>
    match mgCompare item x with
    | some .eq => true
    | _ => false

/-- Match logic `mongory_matcher_in_match`
(`matchers/inclusion_matcher.c`): a missing value never matches; an
array record matches when some of its elements is included in the
condition array; any other record matches when it is itself included. -/
def inMatchF (elems : List MgValue) : Option MgValue → Bool
  | none => false
  | some (.arr xs) => xs.any fun x => arrayIncludes elems x
  | some v => arrayIncludes elems v

/-- Match logic `mongory_matcher_present_match`
(`matchers/existance_matcher.c`): a missing value is present only for a
`false` condition; empty arrays, tables and strings and the Null value
are not present; a Bool record matches when it equals the condition;
every other value is present. -/
def presentMatchF (b : Bool) : Option MgValue → Bool
  | none => !b
  | some v =>
    match v with
    | .arr xs => b == !xs.isEmpty
    | .table kvs => b == !kvs.isEmpty
    | .str s => b == !s.data.isEmpty
    | .null => b == false
    | .bool bb => bb == b
    | _ => b == true

/-- Default regex adapter `mongory_regex_default_func`
(`foundations/config.c`): it matches nothing. -/
def regexAdapterMatch (_pat _subject : MgValue) : Bool := false

mutual

/-- Evaluation `matcher->match(matcher, value)` of the compiled tree.
Each arm is the match function installed by the corresponding
constructor: the comparison arms are `matchers/compare_matcher.c` (a
failed comparison yields `false`, except `$ne`, which yields `true`),
`existsM`/`presentM` are `matchers/existance_matcher.c`, `inM`/`ninM`
are `matchers/inclusion_matcher.c`, `regexM` is
`mongory_matcher_regex_match` (`matchers/external_matcher.c`, with the
default adapter), the literal-wrapper arms inline
`mongory_matcher_literal_match` (`matchers/literal_matcher.c`): an array
value goes to the array-record child (`false` when that child is
absent), any other value to the delegate; and the composite arms are
`matchers/composite_matcher.c`, where `$elemMatch` on an empty array is
`false` because the element loop finds no witness, and `$every` tests
emptiness explicitly. -/
def mmatch : Matcher → Option MgValue → Bool
  | .alwaysTrue, _ => true
  | .alwaysFalse, _ => false
  | .eqM c, v =>
    match v with
    | none => false
    | some val =>
      match mgCompare val c with
      | some .eq => true
      | _ => false
  | .neM c, v =>
    match v with
    | none => true
    | some val =>
      match mgCompare val c with
      | none => true
      | some .eq => false
      | some _ => true
  | .gtM c, v =>
    match v with
    | none => false
    | some val =>
      match mgCompare val c with
      | some .gt => true
      | _ => false
  | .gteM c, v =>
    match v with
    | none => false
    | some val =>
      match mgCompare val c with
      | none => false
      | some .lt => false
      | some _ => true
  | .ltM c, v =>
    match v with
    | none => false
    | some val =>
      match mgCompare val c with
      | some .lt => true
      | _ => false
  | .lteM c, v =>
    match v with
    | none => false
    | some val =>
      match mgCompare val c with
      | none => false
      | some .gt => false
      | some _ => true
  | .inM elems, v => inMatchF elems v
  | .ninM elems, v => !inMatchF elems v
  | .existsM b, v => b == v.isSome
  | .presentM b, v => presentMatchF b v
  | .regexM c, v =>
    match v with
    | some (.str s) => regexAdapterMatch c (.str s)
    | _ => false
  | .fieldM f d a, v =>
    match v with
    | none => false
    | some (.table kvs) =>
      match tlookup kvs f with
      | some (.arr xs) => mmatchOpt a (some (.arr xs))
      | fv => mmatch d fv
    | some (.arr xs) =>
      match tryParseIntCore f with
      | none => false
      | some i =>
        match arrayFieldGet xs i with
        | none => false
        | some (.arr ys) => mmatchOpt a (some (.arr ys))
        | some ev => mmatch d (some ev)
    | some _ => false
  | .notM d a, v =>
    match v with
    | some (.arr xs) => !mmatchOpt a (some (.arr xs))
    | fv => !mmatch d fv
  | .sizeM d _, v =>
    match v with
    | some (.arr xs) => mmatch d (some (.int (xs.length : Int)))
    | _ => false
  | .andC cs, v => mmatchAll cs v
  | .orC cs, v => mmatchAny cs v
  | .elemC cs, v =>
    match v with
    | some (.arr xs) => xs.any fun e => mmatchAll cs (some e)
    | _ => false
  | .everyC cs, v =>
    match v with
    | some (.arr xs) => if xs.isEmpty then false else xs.all fun e => mmatchAll cs (some e)
    | _ => false

/-- Array-record dispatch on a possibly absent child: a `NULL`
array-record matcher makes `mongory_matcher_literal_match` return
`false`. -/
def mmatchOpt : Option Matcher → Option MgValue → Bool
  | none, _ => false
  | some m, v => mmatch m v

/-- Child conjunction `mongory_matcher_and_match`
(`matchers/composite_matcher.c`). -/
def mmatchAll : List Matcher → Option MgValue → Bool
  | [], _ => true
  | c :: cs, v => mmatch c v && mmatchAll cs v

/-- Child disjunction `mongory_matcher_or_match`
(`matchers/composite_matcher.c`). -/
def mmatchAny : List Matcher → Option MgValue → Bool
  | [], _ => false
  | c :: cs, v => mmatch c v || mmatchAny cs v

end

/-- Entry list of a table value (`value->data.t`); the empty list for
any other variant. -/
def MgValue.tableEntries : MgValue → List (String × MgValue)
  | .table kvs => kvs
  | _ => []

/-- First-character test `*key == '$'` used by the compiler dispatch
(`mongory_matcher_build_sub_matcher`) and the array-record parse
(`array_record_matcher.c`). -/
def headIsDollar (s : String) : Bool :=
  match s.data with
  | c :: _ => c = '$'
  | [] => false

/-- Loop `mongory_matcher_array_record_parse_table_foreach`
(`matchers/array_record_matcher.c`) over the entries of a table
condition, threading the two accumulated tables: an explicit
`$elemMatch` entry whose value is a table is merged into the
element-match table; an entry whose key starts with `$`, or for which
`mongory_try_parse_int(key, NULL)` returns true, goes to the parsed
table; every other entry goes to the element-match table.  Note that
the parse-int call passes a `NULL` out pointer, which
`mongory_try_parse_int` rejects outright, so its result is always
false. -/
def parseSplitAux : List (String × MgValue) → List (String × MgValue) →
    List (String × MgValue) → List (String × MgValue) × List (String × MgValue)
  | [], p, e => (p, e)
  | (k, v) :: rest, p, e =>
    if k = "$elemMatch" && v.isTableV then parseSplitAux rest p (tmerge e v.tableEntries)
    else if headIsDollar k || mongoryTryParseInt k false then
      parseSplitAux rest (tset p k v) e
    else parseSplitAux rest p (tset e k v)

/-- Split performed by `mongory_matcher_array_record_parse_table`:
returns the parsed table and the element-match table accumulated from
the condition's entries. -/
def parseSplit (kvs : List (String × MgValue)) :
    List (String × MgValue) × List (String × MgValue) :=
  parseSplitAux kvs [] []

/-- Unfolding of `mongory_matcher_null_new` (`matchers/literal_matcher.c`):
`or_new` over the fixed two-entry condition array containing the tables
with the single entries `$eq: null` and `$exists: false`.  Each of the
two tables compiles through `mongory_matcher_table_cond_new` to its
single leaf, and `or_new` with two children sorts them and builds the
Or composite. -/
def nullCondMatcher : Matcher :=
  .orC (sortMatchers [.eqM .null, .existsM false])

/-- Tail of `mongory_matcher_table_cond_new` and of
`mongory_matcher_and_new` once the child matchers are built: no child
yields the always-true leaf, a single child is returned directly, and
otherwise the children are sorted by priority into an AND composite. -/
def mkTableCondFrom : List Matcher → Matcher
  | [] => .alwaysTrue
  | [c] => c
  | cs => .andC (sortMatchers cs)

/-- Tail of `mongory_matcher_or_new` once the branch matchers are built:
a single branch is returned directly, otherwise the branches are sorted
by priority into an OR composite. -/
def mkOrComposite : List Matcher → Matcher
  | [c] => c
  | cs => .orC (sortMatchers cs)

/-- Constructor `mongory_matcher_in_new` (`matchers/inclusion_matcher.c`):
the condition must be a valid array. -/
def compileInCond (v : MgValue) : Option Matcher :=
  match v with
  | .arr xs => some (.inM xs)
  | _ => none

/-- Constructor `mongory_matcher_not_in_new`
(`matchers/inclusion_matcher.c`): the condition must be a valid array. -/
def compileNinCond (v : MgValue) : Option Matcher :=
  match v with
  | .arr xs => some (.ninM xs)
  | _ => none

/-- Constructor `mongory_matcher_exists_new`
(`matchers/existance_matcher.c`): the condition must be a Bool. -/
def compileExistsCond (v : MgValue) : Option Matcher :=
  match v with
  | .bool b => some (.existsM b)
  | _ => none

/-- Constructor `mongory_matcher_present_new`
(`matchers/existance_matcher.c`): the condition must be a Bool. -/
def compilePresentCond (v : MgValue) : Option Matcher :=
  match v with
  | .bool b => some (.presentM b)
  | _ => none

/-- Constructor `mongory_matcher_regex_new`
(`matchers/external_matcher.c`): the condition must be a String pattern
or a Regex object. -/
def compileRegexCond (v : MgValue) : Option Matcher :=
  match v with
  | .str _ => some (.regexM v)
  | .regex _ => some (.regexM v)
  | _ => none


mutual

/-- Dispatch `mongory_matcher_build_sub_matcher`
(`matchers/composite_matcher.c`): a key starting with `$` looks up the
registered constructor (`foundations/config.c` registers the seventeen
built-in operators); with the default configuration the custom-matcher
adapter has no `lookup` hook, so an unknown `$`-key, like any plain
key, falls through to `mongory_matcher_field_new`.

The leading `Nat` argument of every function of this block is fuel.  It
exists only to express the recursion, which is not structural in the
condition: the array-record constructor re-enters the table-condition
compiler on a table it assembles from the split of the original
condition (`mongory_matcher_array_record_parse_table`).  Every
recursive call passes the predecessor, out of fuel is `none`, and with
enough fuel the result stabilises at the value the C code computes; the
theorems below quantify over every fuel, so they speak about every
value the compiler can produce. -/
def compileSub : Nat → String → MgValue → Option Matcher
  | 0, _, _ => none
  | n + 1, k, v =>
    if headIsDollar k then
      if k = "$in" then compileInCond v
      else if k = "$nin" then compileNinCond v
      else if k = "$eq" then some (.eqM v)
      else if k = "$ne" then some (.neM v)
      else if k = "$gt" then some (.gtM v)
      else if k = "$gte" then some (.gteM v)
      else if k = "$lt" then some (.ltM v)
      else if k = "$lte" then some (.lteM v)
      else if k = "$exists" then compileExistsCond v
      else if k = "$present" then compilePresentCond v
      else if k = "$regex" then compileRegexCond v
      else if k = "$and" then compileAndCond n v
      else if k = "$or" then compileOrCond n v
      else if k = "$elemMatch" then compileElemMatchCond n v
      else if k = "$every" then compileEveryCond n v
      else if k = "$not" then compileNotCond n v
      else if k = "$size" then compileSizeCond n v
      else compileField n k v
    else compileField n k v

/-- Constructor `mongory_matcher_field_new` (`matchers/literal_matcher.c`):
the delegate is built by `mongory_matcher_literal_delegate` and must
succeed; the array-record child is the one
`mongory_matcher_array_record_new` builds lazily from the same stored
condition, compiled here eagerly (see the header note). -/
def compileField : Nat → String → MgValue → Option Matcher
  | 0, _, _ => none
  | n + 1, f, c =>
    match compileDelegate n c with
    | none => none
    | some d => some (.fieldM f d (compileArrayRecord n c))

/-- Dispatch `mongory_matcher_literal_delegate`
(`matchers/literal_matcher.c`): a Table condition becomes a table
condition matcher, a Regex condition a `$regex` matcher, a Null
condition the OR of `$eq: null` and `$exists: false`, and anything else
an equality matcher. -/
def compileDelegate : Nat → MgValue → Option Matcher
  | 0, _ => none
  | n + 1, c =>
    match c with
    | .table kvs => compileTableCond n kvs
    | .regex p => some (.regexM (.regex p))
    | .null => some nullCondMatcher
    | _ => some (.eqM c)

/-- Constructor `mongory_matcher_array_record_new`
(`matchers/array_record_matcher.c`).  For a Table condition the split
of `mongory_matcher_array_record_parse_table` is compiled: the parsed
entries re-enter the compiler, the element-match entries (when any)
form one `$elemMatch` child appended after them, and the combined
children go through the `mongory_matcher_table_cond_new` tail.  For an
Array condition the code builds `or_new` over the two one-entry tables
`$eq: c` and `$elemMatch: ($eq: c)`; both branches are single-entry
table conditions whose leaves are written out here (the inner
`$elemMatch` compiles its single `$eq` child into an ElemMatch
composite), and the two OR branches are sorted.  A Regex condition
becomes `$elemMatch` over `$regex: c`, and any other condition
`$elemMatch` over `$eq: c`, again with the single child written out. -/
def compileArrayRecord : Nat → MgValue → Option Matcher
  | 0, _ => none
  | n + 1, c =>
    match c with
    | .table kvs =>
      match compileEntries n (parseSplit kvs).1 with
      | none => none
      | some pcs =>
        if (parseSplit kvs).2.isEmpty then some (mkTableCondFrom pcs)
        else
          match compileElemMatchEntries n (parseSplit kvs).2 with
          | none => none
          | some em => some (mkTableCondFrom (pcs ++ [em]))
    | .arr _ => some (.orC (sortMatchers [.eqM c, .elemC (sortMatchers [.eqM c])]))
    | .regex _ => some (.elemC (sortMatchers [.regexM c]))
    | _ => some (.elemC (sortMatchers [.eqM c]))

/-- Constructor `mongory_matcher_table_cond_new`
(`matchers/composite_matcher.c`): build one sub-matcher per entry and
combine them through the AND tail (an empty table compiles to the
always-true leaf). -/
def compileTableCond : Nat → List (String × MgValue) → Option Matcher
  | 0, _ => none
  | n + 1, kvs =>
    match compileEntries n kvs with
    | none => none
    | some cs => some (mkTableCondFrom cs)

/-- Loop `mongory_matcher_table_build_sub_matcher` over a table's
entries; a failing entry aborts the construction. -/
def compileEntries : Nat → List (String × MgValue) → Option (List Matcher)
  | 0, _ => none
  | _ + 1, [] => some []
  | n + 1, (k, v) :: rest =>
    match compileSub n k v with
    | none => none
    | some m =>
      match compileEntries n rest with
      | none => none
      | some ms => some (m :: ms)

/-- Constructor `mongory_matcher_and_new`
(`matchers/composite_matcher.c`): the condition must be an Array; an
empty array compiles to the always-true leaf; the first element must be
a Table; every element's entries are flattened into one child list that
goes through the AND tail. -/
def compileAndCond : Nat → MgValue → Option Matcher
  | 0, _ => none
  | n + 1, v =>
    match v with
    | .arr [] => some .alwaysTrue
    | .arr (t :: ts) =>
      match t with
      | .table kvs =>
        match compileAndTables n (.table kvs :: ts) with
        | none => none
        | some cs => some (mkTableCondFrom cs)
      | _ => none
    | _ => none

/-- Flattening loop of `$and` (`mongory_matcher_build_and_sub_matcher`):
each element must be a Table and contributes all its entries' matchers. -/
def compileAndTables : Nat → List MgValue → Option (List Matcher)
  | 0, _ => none
  | _ + 1, [] => some []
  | n + 1, t :: rest =>
    match t with
    | .table kvs =>
      match compileEntries n kvs with
      | none => none
      | some cs =>
        match compileAndTables n rest with
        | none => none
        | some rs => some (cs ++ rs)
    | _ => none

/-- Constructor `mongory_matcher_or_new`
(`matchers/composite_matcher.c`): the condition must be an Array; an
empty array compiles to the always-false leaf; the first element must
be a Table; each element becomes one full table-condition branch and
the branches go through the OR tail. -/
def compileOrCond : Nat → MgValue → Option Matcher
  | 0, _ => none
  | n + 1, v =>
    match v with
    | .arr [] => some .alwaysFalse
    | .arr (t :: ts) =>
      match t with
      | .table kvs =>
        match compileOrTables n (.table kvs :: ts) with
        | none => none
        | some cs => some (mkOrComposite cs)
      | _ => none
    | _ => none

/-- Branch loop of `$or` (`mongory_matcher_build_or_sub_matcher`): each
element is compiled as a complete table condition. -/
def compileOrTables : Nat → List MgValue → Option (List Matcher)
  | 0, _ => none
  | _ + 1, [] => some []
  | n + 1, t :: rest =>
    match t with
    | .table kvs =>
      match compileTableCond n kvs with
      | none => none
      | some m =>
        match compileOrTables n rest with
        | none => none
        | some ms => some (m :: ms)
    | _ => none

/-- Constructor `mongory_matcher_elem_match_new`
(`matchers/composite_matcher.c`): the condition must be a Table. -/
def compileElemMatchCond : Nat → MgValue → Option Matcher
  | 0, _ => none
  | n + 1, v =>
    match v with
    | .table es => compileElemMatchEntries n es
    | _ => none

/-- Body of `mongory_matcher_elem_match_new` once the table is
validated: no child compiles to the always-false leaf, otherwise the
sorted children form an ElemMatch composite. -/
def compileElemMatchEntries : Nat → List (String × MgValue) → Option Matcher
  | 0, _ => none
  | n + 1, es =>
    match compileEntries n es with
    | none => none
    | some [] => some .alwaysFalse
    | some cs => some (.elemC (sortMatchers cs))

/-- Constructor `mongory_matcher_every_new`
(`matchers/composite_matcher.c`): the condition must be a Table. -/
def compileEveryCond : Nat → MgValue → Option Matcher
  | 0, _ => none
  | n + 1, v =>
    match v with
    | .table es => compileEveryEntries n es
    | _ => none

/-- Body of `mongory_matcher_every_new` once the table is validated: no
child compiles to the always-true leaf, otherwise the sorted children
form an Every composite. -/
def compileEveryEntries : Nat → List (String × MgValue) → Option Matcher
  | 0, _ => none
  | n + 1, es =>
    match compileEntries n es with
    | none => none
    | some [] => some .alwaysTrue
    | some cs => some (.everyC (sortMatchers cs))

/-- Constructor `mongory_matcher_not_new` (`matchers/literal_matcher.c`):
a literal wrapper whose delegate is built from the negated condition;
the array-record child is the lazily built one, compiled eagerly. -/
def compileNotCond : Nat → MgValue → Option Matcher
  | 0, _ => none
  | n + 1, v =>
    match compileDelegate n v with
    | none => none
    | some d => some (.notM d (compileArrayRecord n v))

/-- Constructor `mongory_matcher_size_new` (`matchers/literal_matcher.c`):
a literal wrapper whose delegate is built from the size condition. -/
def compileSizeCond : Nat → MgValue → Option Matcher
  | 0, _ => none
  | n + 1, v =>
    match compileDelegate n v with
    | none => none
    | some d => some (.sizeM d (compileArrayRecord n v))

end

mutual

/-- Structural size of a value, used only to pick an ample fuel for the
convenience entry point below. -/
def mgSize : MgValue → Nat
  | .arr xs => 1 + mgSizeL xs
  | .table kvs => 1 + mgSizeE kvs
  | _ => 1

/-- Structural size of a value list. -/
def mgSizeL : List MgValue → Nat
  | [] => 1
  | x :: xs => 1 + mgSize x + mgSizeL xs

/-- Structural size of an entry list. -/
def mgSizeE : List (String × MgValue) → Nat
  | [] => 1
  | (_, v) :: rest => 2 + mgSize v + mgSizeE rest

end

/-- Fuel that is ample for compiling a condition of a given size; used
only by the convenience entry points below. -/
def compileFuel (q : MgValue) : Nat := 8 * mgSize q + 8

/-- Entry point `mongory_matcher_new` (`matchers/matcher.c`): the query
must be a Table and is compiled as a table condition. -/
def compileQuery (q : MgValue) : Option Matcher :=
  match q with
  | .table _ => compileTableCond (compileFuel q) q.tableEntries
  | _ => none

/-- Literal-wrapper dispatch `mongory_matcher_literal_match`
(`matchers/literal_matcher.c`) as a standalone function on the two
children and the looked-up value: an Array value goes to the
array-record child, anything else (a missing value included) to the
delegate. -/
def literalStep (d : Matcher) (a : Option Matcher) (fv : Option MgValue) : Bool :=
  match fv with
  | some (.arr xs) => mmatchOpt a (some (.arr xs))
  | _ => mmatch d fv

/-- Index resolution as the specification words it (second definition
for the refinement claim about field evaluation on array records):
an index within bounds is used directly, a negative index is resolved
from the end of the array, and anything out of range in either
direction resolves to nothing. -/
def specResolveIndex (i : Int) (n : Nat) : Option Nat :=
  if 0 ≤ i ∧ i < n then some i.toNat
  else if -(n : Int) ≤ i ∧ i < 0 then some (i + n).toNat
  else none

/-- Non-decreasing key order along a list, the order the specification
asserts for composite children. -/
def keyChain (key : Matcher → Nat) : List Matcher → Bool
  | [] => true
  | [_] => true
  | a :: b :: rest => decide (key a ≤ key b) && keyChain key (b :: rest)

mutual

/-- Recursive check that the children of every composite node of a tree
are in non-decreasing `matcherKey` order. -/
def wellSorted : Matcher → Bool
  | .fieldM _ d a => wellSorted d && wellSortedOpt a
  | .notM d a => wellSorted d && wellSortedOpt a
  | .sizeM d a => wellSorted d && wellSortedOpt a
  | .andC cs => keyChain matcherKey cs && wellSortedList cs
  | .orC cs => keyChain matcherKey cs && wellSortedList cs
  | .elemC cs => keyChain matcherKey cs && wellSortedList cs
  | .everyC cs => keyChain matcherKey cs && wellSortedList cs
  | _ => true

/-- Sortedness check through an optional array-record child. -/
def wellSortedOpt : Option Matcher → Bool
  | none => true
  | some m => wellSorted m

/-- Sortedness check of every member of a child list. -/
def wellSortedList : List Matcher → Bool
  | [] => true
  | c :: cs => wellSorted c && wellSortedList cs

end

/-- Comparing any non-array value with an array fails: each non-array
compare function accepts only its own (or, for numbers, the numeric)
type. -/
theorem mgCompare_nonArr_arr (e : MgValue) (he : e.isArrV = false)
    (ys : List MgValue) : mgCompare e (.arr ys) = none := by
  cases e <;> simp_all [mgCompare, MgValue.isArrV]

/-- Equality against the Null condition holds exactly for the Null
value. -/
theorem eqNull_isNullV (e : MgValue) :
    mmatch (.eqM .null) (some e) = e.isNullV := by
  cases e <;> simp [mmatch, mgCompare, MgValue.isNullV]

/-- Membership reading of `mongory_array_includes`. -/
theorem arrayIncludes_iff (elems : List MgValue) (x : MgValue) :
    arrayIncludes elems x = true ↔ ∃ c ∈ elems, mgCompare c x = some .eq := by
  simp only [arrayIncludes, List.any_eq_true]
  constructor
  · rintro ⟨c, hc, h⟩
    refine ⟨c, hc, ?_⟩
    cases h2 : mgCompare c x with
    | none => simp [h2] at h
    | some o => cases o <;> simp_all
  · rintro ⟨c, hc, h⟩
    exact ⟨c, hc, by simp [h]⟩

/-- C7: for every condition `c` and every record value, a missing value
and values whose comparison with `c` fails included, the `$ne` matcher
returns the boolean negation of the `$eq` matcher; in particular an
incomparable comparison makes `$eq` return false and `$ne` return
true. -/
theorem c7_ne_negates_eq (c : MgValue) :
    (∀ v : Option MgValue, mmatch (.neM c) v = !mmatch (.eqM c) v) ∧
    (∀ w : MgValue, mgCompare w c = none →
      mmatch (.eqM c) (some w) = false ∧ mmatch (.neM c) (some w) = true) := by
  constructor
  · intro v
    cases v with
    | none => rfl
    | some val =>
      cases h : mgCompare val c with
      | none => simp [mmatch, h]
      | some o => cases o <;> simp [mmatch, h]
  · intro w hw
    exact ⟨by simp [mmatch, hw], by simp [mmatch, hw]⟩

/-- C7 witness: the Int condition 1 is incomparable with the String
record value, so `$eq` is false, `$ne` is true, and they are mutual
negations there. -/
theorem c7_ne_negates_eq_witness :
    mgCompare (.str "a") (.int 1) = none ∧
    mmatch (.eqM (.int 1)) (some (.str "a")) = false ∧
    mmatch (.neM (.int 1)) (some (.str "a")) = true := by
  refine ⟨rfl, ?_, ?_⟩
  · exact ((c7_ne_negates_eq (.int 1)).2 (.str "a") rfl).1
  · exact ((c7_ne_negates_eq (.int 1)).2 (.str "a") rfl).2

/-- C9: the comparison of a Map value with anything (a structurally
identical Map included) fails in both argument positions, so a compiled
`$eq` matcher whose condition is a Map matches no record value at
all. -/
theorem c9_table_eq_never_matches (kvs : List (String × MgValue)) :
    (∀ b : MgValue, mgCompare (.table kvs) b = none) ∧
    (∀ a : MgValue, mgCompare a (.table kvs) = none) ∧
    (∀ n, compileSub (n + 1) "$eq" (.table kvs) = some (.eqM (.table kvs))) ∧
    (∀ v : Option MgValue, mmatch (.eqM (.table kvs)) v = false) := by
  have h2 : ∀ a : MgValue, mgCompare a (.table kvs) = none := by
    intro a; cases a <;> simp [mgCompare]
  refine ⟨fun b => rfl, h2, ?_, ?_⟩
  · intro n
    simp [compileSub, headIsDollar]
  · intro v
    cases v with
    | none => rfl
    | some w => simp [mmatch, h2 w]

/-- C3 (code bug): in the array-record parse split, the numeric-index
key "0" ends up in the implicit-elemMatch table, not the parsed table,
because the split calls `mongory_try_parse_int(key, NULL)` and that
function rejects a NULL out pointer outright; with a valid out pointer
the same key parses fine.  As a consequence the query
`a: (0: 1)` fails to match the record `a: [1]`, although routing the
index key through the parsed table, as the code's own comments and the
specification describe, would match it. -/
theorem c3_numeric_key_misrouted :
    parseSplit [("0", MgValue.int 1)] = ([], [("0", MgValue.int 1)]) ∧
    mongoryTryParseInt "0" false = false ∧
    mongoryTryParseInt "0" true = true ∧
    (compileTableCond 100 [("a", .table [("0", .int 1)])]).map
      (fun m => mmatch m (some (.table [("a", .arr [.int 1])]))) = some false := by
  exact ⟨rfl, rfl, rfl, rfl⟩

/-- C10: `$elemMatch` with an empty Map condition compiles to the
always-false leaf, which matches no record at all, while `$every` with
an empty Map condition compiles to the always-true leaf, which matches
every record, non-arrays included. -/
theorem c10_empty_map_elem_every :
    (∀ n, compileSub (n + 4) "$elemMatch" (.table []) = some .alwaysFalse) ∧
    (∀ v : Option MgValue, mmatch .alwaysFalse v = false) ∧
    (∀ n, compileSub (n + 4) "$every" (.table []) = some .alwaysTrue) ∧
    (∀ v : Option MgValue, mmatch .alwaysTrue v = true) := by
  refine ⟨?_, fun v => rfl, ?_, fun v => rfl⟩
  · intro n
    simp [compileSub, headIsDollar, compileElemMatchCond, compileElemMatchEntries,
      compileEntries]
  · intro n
    simp [compileSub, headIsDollar, compileEveryCond, compileEveryEntries,
      compileEntries]

/-- Successful entry compilation of a nonempty table yields a nonempty
child list, since every entry contributes exactly one matcher. -/
theorem compileEntries_nil_of_some_nil :
    ∀ (n : Nat) (kvs : List (String × MgValue)),
      compileEntries n kvs = some [] → kvs = [] := by
  intro n kvs h
  match n, kvs with
  | 0, _ => simp [compileEntries] at h
  | _ + 1, [] => rfl
  | n + 1, (k, v) :: rest =>
    rcases h1 : compileSub n k v with _ | m
    · simp [compileEntries, h1] at h
    · rcases h2 : compileEntries n rest with _ | ms
      · simp [compileEntries, h1, h2] at h
      · simp [compileEntries, h1, h2] at h

/-- C4 counterexample: compiling `$every` with the empty Map condition
yields the always-true matcher, which returns true on the empty-array
record, contradicting the claim that every compiled `$every` matcher
returns false on empty arrays. -/
theorem c4_counterexample :
    compileSub 100 "$every" (.table []) = some .alwaysTrue ∧
    mmatch .alwaysTrue (some (.arr [])) = true := ⟨rfl, rfl⟩

/-- C4 as amended: compiling an empty `$and` yields a matcher that is
true on every record and an empty `$or` one that is false on every
record; every compiled `$elemMatch` matcher returns false on an
empty-array record; and a compiled `$every` matcher returns false on an
empty-array record whenever its condition map is nonempty (with an
empty condition map `$every` compiles to the always-true matcher
instead). -/
theorem c4_empty_and_or_elem_every :
    (∀ n, compileSub (n + 2) "$and" (.arr []) = some .alwaysTrue) ∧
    (∀ v : Option MgValue, mmatch .alwaysTrue v = true) ∧
    (∀ n, compileSub (n + 2) "$or" (.arr []) = some .alwaysFalse) ∧
    (∀ v : Option MgValue, mmatch .alwaysFalse v = false) ∧
    (∀ n kvs m, compileSub n "$elemMatch" (.table kvs) = some m →
      mmatch m (some (.arr [])) = false) ∧
    (∀ n kvs m, kvs ≠ [] → compileSub n "$every" (.table kvs) = some m →
      mmatch m (some (.arr [])) = false) := by
  refine ⟨?_, fun v => rfl, ?_, fun v => rfl, ?_, ?_⟩
  · intro n; simp [compileSub, headIsDollar, compileAndCond]
  · intro n; simp [compileSub, headIsDollar, compileOrCond]
  · intro n kvs m h
    cases n with
    | zero => simp [compileSub] at h
    | succ n =>
      simp only [compileSub, headIsDollar] at h
      simp at h
      cases n with
      | zero => simp [compileElemMatchCond] at h
      | succ n =>
        simp only [compileElemMatchCond] at h
        cases n with
        | zero => simp [compileElemMatchEntries] at h
        | succ n =>
          simp only [compileElemMatchEntries] at h
          rcases hE : compileEntries n kvs with _ | cs
          · simp [hE] at h
          · rcases cs with _ | ⟨c0, cs⟩
            · simp [hE] at h; subst h; rfl
            · simp [hE] at h; subst h; rfl
  · intro n kvs m hne h
    cases n with
    | zero => simp [compileSub] at h
    | succ n =>
      simp only [compileSub, headIsDollar] at h
      simp at h
      cases n with
      | zero => simp [compileEveryCond] at h
      | succ n =>
        simp only [compileEveryCond] at h
        cases n with
        | zero => simp [compileEveryEntries] at h
        | succ n =>
          simp only [compileEveryEntries] at h
          rcases hE : compileEntries n kvs with _ | cs
          · simp [hE] at h
          · rcases cs with _ | ⟨c0, cs⟩
            · exact absurd (compileEntries_nil_of_some_nil n kvs hE) hne
            · simp [hE] at h; subst h; rfl

/-- C4 witness: at the one-entry condition map, the compiled
`$elemMatch` and `$every` matchers both reject the empty-array
record. -/
theorem c4_empty_and_or_elem_every_witness :
    mmatch (.elemC [.fieldM "x" (.eqM (.int 1)) (some (.elemC [.eqM (.int 1)]))])
      (some (.arr [])) = false ∧
    mmatch (.everyC [.fieldM "x" (.eqM (.int 1)) (some (.elemC [.eqM (.int 1)]))])
      (some (.arr [])) = false := by
  constructor
  · exact c4_empty_and_or_elem_every.2.2.2.2.1 100 [("x", .int 1)] _ rfl
  · exact c4_empty_and_or_elem_every.2.2.2.2.2 100 [("x", .int 1)] _ (by simp) rfl

/-- C6: a `$in` condition array compiles to the In matcher; on an array
record the In matcher is true exactly when some record element compares
equal to some condition element, on any other record exactly when the
record value itself does, and `$nin` is the pointwise boolean
complement of `$in` on every record value, a missing one included. -/
theorem c6_in_nin (elems : List MgValue) :
    (∀ n, compileSub (n + 1) "$in" (.arr elems) = some (.inM elems)) ∧
    (∀ n, compileSub (n + 1) "$nin" (.arr elems) = some (.ninM elems)) ∧
    (∀ xs : List MgValue, (mmatch (.inM elems) (some (.arr xs)) = true ↔
      ∃ x ∈ xs, ∃ c ∈ elems, mgCompare c x = some .eq)) ∧
    (∀ v : MgValue, v.isArrV = false →
      (mmatch (.inM elems) (some v) = true ↔ ∃ c ∈ elems, mgCompare c v = some .eq)) ∧
    (∀ v : Option MgValue, mmatch (.ninM elems) v = !mmatch (.inM elems) v) := by
  refine ⟨?_, ?_, ?_, ?_, fun v => rfl⟩
  · intro n; simp [compileSub, headIsDollar, compileInCond]
  · intro n; simp [compileSub, headIsDollar, compileNinCond]
  · intro xs
    simp [mmatch, inMatchF, List.any_eq_true, arrayIncludes_iff]
  · intro v hv
    cases v <;> simp_all [mmatch, inMatchF, arrayIncludes_iff, MgValue.isArrV]

/-- C6 witness: with the condition set containing 1 and "x", the scalar
record 1 is in the set, the array record containing 7 and "x"
intersects the set, and `$nin` negates both. -/
theorem c6_in_nin_witness :
    (mmatch (.inM [.int 1, .str "x"]) (some (.int 1)) = true ↔
      ∃ c ∈ [MgValue.int 1, MgValue.str "x"], mgCompare c (.int 1) = some .eq) ∧
    mmatch (.ninM [.int 1, .str "x"]) (some (.int 1)) =
      !mmatch (.inM [.int 1, .str "x"]) (some (.int 1)) := by
  constructor
  · exact (c6_in_nin [.int 1, .str "x"]).2.2.2.1 (.int 1) rfl
  · exact (c6_in_nin [.int 1, .str "x"]).2.2.2.2 (some (.int 1))

/-- A resolved index is in range. -/
theorem specResolveIndex_lt {i : Int} {n j : Nat}
    (h : specResolveIndex i n = some j) : j < n := by
  simp only [specResolveIndex] at h
  split_ifs at h with h1 h2
  all_goals first
    | (simp only [Option.some.injEq] at h; omega)
    | simp at h

/-- The double bounds check and cast of `mongory_matcher_field_match`
compute exactly the specification's index resolution followed by the
element lookup. -/
theorem arrayFieldGet_eq_spec (xs : List MgValue) (i : Int) :
    arrayFieldGet xs i =
      match specResolveIndex i xs.length with
      | none => none
      | some j => xs[j]? := by
  by_cases hi : i < 0
  · by_cases hb : -i > (xs.length : Int)
    · have h3 : ¬(0 ≤ i) := by omega
      have h4 : ¬(-(xs.length : Int) ≤ i) := by omega
      simp [arrayFieldGet, specResolveIndex, hi, hb, h3, h4]
    · have h3 : ¬(0 ≤ i) := by omega
      have h4 : -(xs.length : Int) ≤ i := by omega
      have hinner : ¬((xs.length : Int) + i ≥ (xs.length : Int)) := by omega
      simp [arrayFieldGet, specResolveIndex, hi, hb, h3, h4, hinner,
        Int.add_comm]
  · by_cases hr : i ≥ (xs.length : Int)
    · have h3 : 0 ≤ i := by omega
      have h4 : ¬(i < (xs.length : Int)) := by omega
      simp [arrayFieldGet, specResolveIndex, hi, hr, h3, h4]
    · have h3 : 0 ≤ i := by omega
      have h4 : i < (xs.length : Int) := by omega
      simp [arrayFieldGet, specResolveIndex, hi, hr, h3, h4]

/-- C8: evaluating a Field node against an Array record parses the
field name as a signed integer (no parse, no match), resolves a
negative index from the end, rejects an index that is out of range in
either direction, and otherwise applies the literal-wrapper dispatch
(delegate or array-record child) to the element at the resolved
index. -/
theorem c8_field_on_array_record (f : String) (d : Matcher) (a : Option Matcher)
    (xs : List MgValue) :
    mmatch (.fieldM f d a) (some (.arr xs)) =
      match tryParseIntCore f with
      | none => false
      | some i =>
        match specResolveIndex i xs.length with
        | none => false
        | some j => literalStep d a xs[j]? := by
  cases hp : tryParseIntCore f with
  | none => simp [mmatch, hp]
  | some i =>
    simp only [mmatch, hp]
    rw [arrayFieldGet_eq_spec]
    cases hs : specResolveIndex i xs.length with
    | none => simp
    | some j =>
      have hj : j < xs.length := specResolveIndex_lt hs
      simp only
      rw [List.getElem?_eq_getElem hj]
      cases hx : xs[j] <;> simp [literalStep]

/-- Entry compilation of the empty table yields the empty child list. -/
theorem compileEntries_nil_some {n : Nat} {ms : List Matcher}
    (h : compileEntries n [] = some ms) : ms = [] := by
  cases n with
  | zero => simp [compileEntries] at h
  | succ n =>
    simp [compileEntries] at h
    first
    | exact h
    | exact h.symm

/-- Sorting a single child is the identity. -/
theorem sortMatchers_single (x : Matcher) : sortMatchers [x] = [x] := rfl

/-- Compiling a one-entry query whose key is a plain field name reduces
to the field constructor. -/
theorem compileTableCond_single_inv {n : Nat} {f : String} {c : MgValue} {m : Matcher}
    (hf : headIsDollar f = false) (h : compileTableCond n [(f, c)] = some m) :
    ∃ p, compileField p f c = some m := by
  match n with
  | 0 => simp [compileTableCond] at h
  | n + 1 =>
    simp only [compileTableCond] at h
    rcases hE : compileEntries n [(f, c)] with _ | cs
    · simp [hE] at h
    · simp only [hE] at h
      match n, hE with
      | n + 1, hE =>
        simp only [compileEntries] at hE
        rcases hS : compileSub n f c with _ | m0
        · simp [hS] at hE
        · rcases hR : compileEntries n [] with _ | ms
          · simp [hS, hR] at hE
          · have hms := compileEntries_nil_some hR
            subst hms
            simp [hS, hR] at hE
            subst hE
            simp [mkTableCondFrom] at h
            match n, hS with
            | n + 1, hS =>
              simp only [compileSub, hf, Bool.false_eq_true, if_false] at hS
              exact ⟨n, by rw [hS, h]⟩

/-- A successful field construction splits into its delegate and its
array-record child. -/
theorem compileField_inv {n : Nat} {f : String} {c : MgValue} {m : Matcher}
    (h : compileField n f c = some m) :
    ∃ q d, compileDelegate q c = some d ∧
      m = .fieldM f d (compileArrayRecord q c) := by
  cases n with
  | zero => simp [compileField] at h
  | succ n =>
    simp only [compileField] at h
    rcases hd : compileDelegate n c with _ | d
    · simp [hd] at h
    · simp only [hd] at h
      refine ⟨n, d, hd, ?_⟩
      injection h with h
      exact h.symm

/-- A successful delegate for the Null condition is the fixed OR of
`$eq: null` and `$exists: false`, and needs positive fuel. -/
theorem compileDelegate_null_inv {n : Nat} {d : Matcher}
    (h : compileDelegate n .null = some d) :
    d = nullCondMatcher ∧ ∃ p, n = p + 1 := by
  cases n with
  | zero => simp [compileDelegate] at h
  | succ n =>
    simp [compileDelegate] at h
    exact ⟨h.symm, n, rfl⟩

/-- Pointwise congruence for the boolean any. -/
theorem list_any_congr {α : Type} {f g : α → Bool} :
    ∀ l : List α, (∀ a ∈ l, f a = g a) → l.any f = l.any g := by
  intro l h
  induction l with
  | nil => rfl
  | cons a l ih => simp_all

/-- C5 counterexample: the compiled query `name: null` matches the
record whose `name` field holds the array containing Null, although the
record is a Map whose field is neither explicitly Null nor missing, so
the claimed "does not match when the field holds any other value" fails
on this input. -/
theorem c5_counterexample :
    (compileTableCond 100 [("name", MgValue.null)]).isSome = true ∧
    (compileTableCond 100 [("name", MgValue.null)]).map
      (fun m => mmatch m (some (.table [("name", .arr [.null])]))) = some true := ⟨rfl, rfl⟩

/-- C5 as amended: for a field name that neither starts with `$` nor
parses as an integer, the compiled query `f: null` matches a record
exactly when the record is a Map whose field `f` is explicitly Null,
missing, or an Array with a Null element (the array-record path), and
matches no record that is not a Map; the Field delegate for the Null
subcondition is the OR of `$eq: null` and `$exists: false`. -/
theorem c5_null_condition (f : String) (hf : headIsDollar f = false)
    (hp : tryParseIntCore f = none) :
    ∀ n m, compileTableCond n [(f, MgValue.null)] = some m →
      m = .fieldM f (.orC [.eqM .null, .existsM false]) (some (.elemC [.eqM .null])) ∧
      ∀ r : MgValue, mmatch m (some r) =
        (match r with
        | .table kvs =>
          match tlookup kvs f with
          | none => true
          | some .null => true
          | some (.arr es) => es.any fun e => e.isNullV
          | some _ => false
        | _ => false) := by
  intro n m hcomp
  obtain ⟨p, hfield⟩ := compileTableCond_single_inv hf hcomp
  obtain ⟨q, d, hdel, hm⟩ := compileField_inv hfield
  obtain ⟨hd, p2, hq⟩ := compileDelegate_null_inv hdel
  subst hd hq
  have hm2 : m = .fieldM f (.orC [.eqM .null, .existsM false])
      (some (.elemC [.eqM .null])) := by
    rw [hm]; rfl
  refine ⟨hm2, ?_⟩
  subst hm2
  intro r
  cases r with
  | table kvs =>
    rcases hl : tlookup kvs f with _ | w
    · simp [mmatch, hl, mmatchAny, mgCompare]
    · cases w
      case arr xs =>
        simp only [mmatch, hl, mmatchOpt]
        exact list_any_congr _ fun e _ => by simp [mmatchAll, eqNull_isNullV]
      all_goals
        simp [mmatch, hl, mmatchOpt, mmatchAll, mmatchAny, mgCompare, eqNull_isNullV]
  | arr xs => simp [mmatch, hp]
  | null => rfl
  | bool b => rfl
  | int i => rfl
  | double d => rfl
  | str s => rfl
  | regex p => rfl
  | pointer => rfl
  | unsupported => rfl

/-- C5 witness: at the field name "name", the compiled `name: null`
query has the stated shape, matches the empty Map (missing field) and
the Map with an explicit Null, and rejects the Map with a String
there. -/
theorem c5_null_condition_witness :
    (compileTableCond 100 [("name", MgValue.null)] =
      some (.fieldM "name" (.orC [.eqM .null, .existsM false])
        (some (.elemC [.eqM .null])))) ∧
    mmatch (.fieldM "name" (.orC [.eqM .null, .existsM false])
      (some (.elemC [.eqM .null]))) (some (.table [])) = true ∧
    mmatch (.fieldM "name" (.orC [.eqM .null, .existsM false])
      (some (.elemC [.eqM .null]))) (some (.table [("name", .null)])) = true ∧
    mmatch (.fieldM "name" (.orC [.eqM .null, .existsM false])
      (some (.elemC [.eqM .null]))) (some (.table [("name", .str "a")])) = false := by
  have h := c5_null_condition "name" rfl rfl 100
    (.fieldM "name" (.orC [.eqM .null, .existsM false]) (some (.elemC [.eqM .null]))) rfl
  exact ⟨rfl, (h.2 (.table [])).trans rfl,
    (h.2 (.table [("name", .null)])).trans rfl,
    (h.2 (.table [("name", .str "a")])).trans rfl⟩

/-- Boolean-equality reading of the `$eq` match function. -/
theorem eqMatch_beq (c w : MgValue) :
    mmatch (.eqM c) (some w) = (mgCompare w c == some Ordering.eq) := by
  cases h : mgCompare w c with
  | none => simp [mmatch, h]
  | some o => cases o <;> simp [mmatch, h] <;> rfl

/-- A single-child AND reduces to the child. -/
theorem mmatchAll_single (x : Matcher) (v : Option MgValue) :
    mmatchAll [x] v = mmatch x v := by simp [mmatchAll]

/-- A pointwise-false predicate makes the boolean any false. -/
theorem list_any_false {α : Type} {f : α → Bool} :
    ∀ l : List α, (∀ a ∈ l, f a = false) → l.any f = false := by
  intro l h
  induction l with
  | nil => rfl
  | cons a l ih => simp_all

/-- Evaluating a field matcher on the one-entry Map record built from
its own field name extracts that entry and, for a non-array value,
delegates. -/
theorem fieldM_single_entry (f : String) (D : Matcher) (A : Option Matcher)
    (e : MgValue) (hev : e.isArrV = false) :
    mmatch (.fieldM f D A) (some (.table [(f, e)])) = mmatch D (some e) := by
  cases e
  case arr xs => simp [MgValue.isArrV] at hev
  all_goals simp [mmatch, tlookup]

/-- Unfolding of the Null-condition OR. -/
theorem nullCondMatcher_orC : nullCondMatcher = .orC [.eqM .null, .existsM false] := rfl

/-- Array-record compilation of an Array condition, with its two
single-entry branches and the sort written out. -/
theorem compileArrayRecord_arr (n : Nat) (ys : List MgValue) :
    compileArrayRecord (n + 1) (.arr ys) =
      some (.orC [.eqM (.arr ys), .elemC [.eqM (.arr ys)]]) := by
  simp only [compileArrayRecord, sortMatchers_single]
  simp [sortMatchers, mergeSortBy, mergeSortByAux, mergeBy, mergeByAux, matcherKey,
    priority, prioritySum]

/-- C1 counterexample: for the field "a" and the scalar condition 5,
the compiled query does not match the record whose "a" field is the
nested array containing the array containing 5, yet it does match the
record whose "a" field is that inner array; the claimed equivalence
with "some element matches the per-element query" therefore fails at
this record, whose single element is the inner array. -/
theorem c1_counterexample :
    (compileTableCond 100 [("a", MgValue.int 5)]).isSome = true ∧
    (compileTableCond 100 [("a", MgValue.int 5)]).map
      (fun m => mmatch m (some (.table [("a", .arr [.arr [.int 5]])]))) = some false ∧
    (compileTableCond 100 [("a", MgValue.int 5)]).map
      (fun m => mmatch m (some (.table [("a", .arr [.int 5])]))) = some true :=
  ⟨rfl, rfl, rfl⟩

/-- C1 as amended: for a plain field name, a non-Map condition `c`, and
a record whose value at the field is an array of non-array elements,
the compiled query `f: c` matches the record exactly when some element
`e` makes `f: c` match the one-entry record `f: e`, or, when `c` itself
is an Array, when the whole array compares equal to `c`.  The
restriction to non-array elements is forced by the counterexample:
a nested array is probed by the element-level query through the
array-record path again, which the element-wise `$eq` of the outer
query does not do. -/
theorem c1_array_duality (f : String) (c : MgValue) (es : List MgValue)
    (hf : headIsDollar f = false) (hc : c.isTableV = false)
    (he : ∀ e ∈ es, e.isArrV = false) :
    ∀ n m kvs, compileTableCond n [(f, c)] = some m →
      tlookup kvs f = some (.arr es) →
      mmatch m (some (.table kvs)) =
        ((es.any fun e => mmatch m (some (.table [(f, e)]))) ||
          (c.isArrV && (mgCompare (.arr es) c == some Ordering.eq))) := by
  intro n m kvs hcomp hlook
  obtain ⟨p, hfield⟩ := compileTableCond_single_inv hf hcomp
  obtain ⟨q, d, hdel, hm⟩ := compileField_inv hfield
  cases q with
  | zero => simp [compileDelegate] at hdel
  | succ q =>
    cases c with
    | table kvs2 => simp [MgValue.isTableV] at hc
    | null =>
      simp only [compileDelegate] at hdel
      injection hdel with hdel
      subst hdel
      subst hm
      rw [list_any_congr _ (fun e hev => fieldM_single_entry f _ _ e (he e hev))]
      simp only [mmatch, hlook, mmatchOpt, compileArrayRecord, sortMatchers_single,
        MgValue.isArrV, Bool.false_and, Bool.or_false]
      exact list_any_congr _ fun e _ => by
        simp [mmatchAll, nullCondMatcher_orC, mmatch, mmatchAny]
    | regex pat =>
      simp only [compileDelegate] at hdel
      injection hdel with hdel
      subst hdel
      subst hm
      rw [list_any_congr _ (fun e hev => fieldM_single_entry f _ _ e (he e hev))]
      simp only [mmatch, hlook, mmatchOpt, compileArrayRecord, sortMatchers_single,
        MgValue.isArrV, Bool.false_and, Bool.or_false]
      exact list_any_congr _ fun e _ => by simp [mmatchAll, mmatch]
    | arr ys =>
      simp only [compileDelegate] at hdel
      injection hdel with hdel
      subst hdel
      subst hm
      rw [list_any_congr _ (fun e hev => fieldM_single_entry f _ _ e (he e hev))]
      rw [list_any_false _ (fun e hev => by
        rw [eqMatch_beq]
        rw [mgCompare_nonArr_arr e (he e hev) ys]
        rfl)]
      simp only [mmatch, hlook, mmatchOpt, compileArrayRecord_arr, MgValue.isArrV,
        Bool.true_and, Bool.false_or, mmatchAny]
      rw [list_any_false _ (fun e hev => by
        rw [mmatchAll_single, eqMatch_beq]
        rw [mgCompare_nonArr_arr e (he e hev) ys]
        rfl)]
      cases h : mgCompare (.arr es) (.arr ys) with
      | none => rfl
      | some o => cases o <;> rfl
    | bool b =>
      simp only [compileDelegate] at hdel
      injection hdel with hdel
      subst hdel
      subst hm
      rw [list_any_congr _ (fun e hev => fieldM_single_entry f _ _ e (he e hev))]
      simp only [mmatch, hlook, mmatchOpt, compileArrayRecord, sortMatchers_single,
        MgValue.isArrV, Bool.false_and, Bool.or_false]
      exact list_any_congr _ fun e _ => by simp [mmatchAll, mmatch]
    | int i =>
      simp only [compileDelegate] at hdel
      injection hdel with hdel
      subst hdel
      subst hm
      rw [list_any_congr _ (fun e hev => fieldM_single_entry f _ _ e (he e hev))]
      simp only [mmatch, hlook, mmatchOpt, compileArrayRecord, sortMatchers_single,
        MgValue.isArrV, Bool.false_and, Bool.or_false]
      exact list_any_congr _ fun e _ => by simp [mmatchAll, mmatch]
    | double x =>
      simp only [compileDelegate] at hdel
      injection hdel with hdel
      subst hdel
      subst hm
      rw [list_any_congr _ (fun e hev => fieldM_single_entry f _ _ e (he e hev))]
      simp only [mmatch, hlook, mmatchOpt, compileArrayRecord, sortMatchers_single,
        MgValue.isArrV, Bool.false_and, Bool.or_false]
      exact list_any_congr _ fun e _ => by simp [mmatchAll, mmatch]
    | str s =>
      simp only [compileDelegate] at hdel
      injection hdel with hdel
      subst hdel
      subst hm
      rw [list_any_congr _ (fun e hev => fieldM_single_entry f _ _ e (he e hev))]
      simp only [mmatch, hlook, mmatchOpt, compileArrayRecord, sortMatchers_single,
        MgValue.isArrV, Bool.false_and, Bool.or_false]
      exact list_any_congr _ fun e _ => by simp [mmatchAll, mmatch]
    | pointer =>
      simp only [compileDelegate] at hdel
      injection hdel with hdel
      subst hdel
      subst hm
      rw [list_any_congr _ (fun e hev => fieldM_single_entry f _ _ e (he e hev))]
      simp only [mmatch, hlook, mmatchOpt, compileArrayRecord, sortMatchers_single,
        MgValue.isArrV, Bool.false_and, Bool.or_false]
      exact list_any_congr _ fun e _ => by simp [mmatchAll, mmatch]
    | unsupported =>
      simp only [compileDelegate] at hdel
      injection hdel with hdel
      subst hdel
      subst hm
      rw [list_any_congr _ (fun e hev => fieldM_single_entry f _ _ e (he e hev))]
      simp only [mmatch, hlook, mmatchOpt, compileArrayRecord, sortMatchers_single,
        MgValue.isArrV, Bool.false_and, Bool.or_false]
      exact list_any_congr _ fun e _ => by simp [mmatchAll, mmatch]

/-- Closed instance of the amended duality at the field "a", the
condition 5, and the record whose "a" is the one-element array [5]. -/
theorem c1_array_duality_witness :
    headIsDollar "a" = false ∧ (MgValue.int 5).isTableV = false ∧
    (∀ e ∈ [MgValue.int 5], e.isArrV = false) ∧
    compileTableCond 100 [("a", MgValue.int 5)] =
      some (.fieldM "a" (.eqM (.int 5)) (some (.elemC [.eqM (.int 5)]))) ∧
    tlookup [("a", MgValue.arr [MgValue.int 5])] "a" = some (.arr [.int 5]) ∧
    mmatch (.fieldM "a" (.eqM (.int 5)) (some (.elemC [.eqM (.int 5)])))
        (some (.table [("a", .arr [.int 5])])) =
      (([MgValue.int 5].any fun e =>
          mmatch (.fieldM "a" (.eqM (.int 5)) (some (.elemC [.eqM (.int 5)])))
            (some (.table [("a", e)]))) ||
        ((MgValue.int 5).isArrV &&
          (mgCompare (.arr [MgValue.int 5]) (.int 5) == some Ordering.eq))) := by
  refine ⟨rfl, rfl, ?_, rfl, rfl, ?_⟩
  · intro e he
    simp only [List.mem_singleton] at he
    subst he
    rfl
  · exact c1_array_duality "a" (.int 5) [.int 5] rfl rfl
      (by
        intro e he
        simp only [List.mem_singleton] at he
        subst he
        rfl)
      100 _ _ rfl rfl

/-- Any element of a merge step comes from one of the two runs. -/
theorem mergeByAux_mem (key : Matcher → Nat) :
    ∀ (n : Nat) (l r : List Matcher) (x : Matcher),
      x ∈ mergeByAux key n l r → x ∈ l ∨ x ∈ r := by
  intro n
  induction n with
  | zero =>
    intro l r x hx
    simpa using (by simpa [mergeByAux] using hx : x ∈ l ++ r)
  | succ n ih =>
    intro l r x hx
    match l, r with
    | [], r =>
      simp only [mergeByAux] at hx
      exact Or.inr hx
    | a :: l, [] =>
      simp only [mergeByAux] at hx
      exact Or.inl hx
    | a :: l, b :: r =>
      simp only [mergeByAux] at hx
      by_cases hk : key a < key b
      · rw [if_pos hk] at hx
        rcases List.mem_cons.mp hx with h | h
        · exact Or.inl (h ▸ List.mem_cons_self _ _)
        · rcases ih l (b :: r) x h with h1 | h1
          · exact Or.inl (List.mem_cons_of_mem _ h1)
          · exact Or.inr h1
      · rw [if_neg hk] at hx
        rcases List.mem_cons.mp hx with h | h
        · exact Or.inr (h ▸ List.mem_cons_self _ _)
        · rcases ih (a :: l) r x h with h1 | h1
          · exact Or.inl h1
          · exact Or.inr (List.mem_cons_of_mem _ h1)

/-- Any element of the merge sort comes from the input list. -/
theorem mergeSortByAux_mem (key : Matcher → Nat) :
    ∀ (n : Nat) (l : List Matcher) (x : Matcher),
      x ∈ mergeSortByAux key n l → x ∈ l := by
  intro n
  induction n with
  | zero =>
    intro l x hx
    simpa [mergeSortByAux] using hx
  | succ n ih =>
    intro l x hx
    simp only [mergeSortByAux] at hx
    by_cases hl : l.length ≤ 1
    · rw [if_pos hl] at hx
      exact hx
    · rw [if_neg hl] at hx
      simp only [mergeBy] at hx
      rcases mergeByAux_mem key _ _ _ x hx with h | h
      · exact List.take_subset _ _ (ih _ x h)
      · exact List.drop_subset _ _ (ih _ x h)

/-- Any element of the sorted child list is one of the original
children. -/
theorem sortMatchers_mem {x : Matcher} {l : List Matcher}
    (hx : x ∈ sortMatchers l) : x ∈ l :=
  mergeSortByAux_mem matcherKey l.length l x hx

/-- The merge step of two key-sorted runs is key-sorted, given the fuel
the entry point supplies. -/
theorem mergeByAux_sorted (key : Matcher → Nat) :
    ∀ (n : Nat) (l r : List Matcher), l.length + r.length ≤ n →
      List.Sorted (fun a b => key a ≤ key b) l →
      List.Sorted (fun a b => key a ≤ key b) r →
      List.Sorted (fun a b => key a ≤ key b) (mergeByAux key n l r) := by
  intro n
  induction n with
  | zero =>
    intro l r hlen hl hr
    have hl0 : l = [] := List.length_eq_zero.mp (by omega)
    have hr0 : r = [] := List.length_eq_zero.mp (by omega)
    subst hl0
    subst hr0
    simpa [mergeByAux] using List.sorted_nil
  | succ n ih =>
    intro l r hlen hl hr
    match l, r with
    | [], r => simpa [mergeByAux] using hr
    | a :: l, [] => simpa [mergeByAux] using hl
    | a :: l, b :: r =>
      simp only [mergeByAux]
      rcases List.sorted_cons.mp hl with ⟨ha, hl'⟩
      rcases List.sorted_cons.mp hr with ⟨hb, hr'⟩
      by_cases hk : key a < key b
      · rw [if_pos hk]
        refine List.sorted_cons.mpr ⟨?_, ?_⟩
        · intro x hx
          rcases mergeByAux_mem key n l (b :: r) x hx with h | h
          · exact ha x h
          · rcases List.mem_cons.mp h with h1 | h1
            · rw [h1]; exact Nat.le_of_lt hk
            · exact Nat.le_trans (Nat.le_of_lt hk) (hb x h1)
        · exact ih l (b :: r) (by simp only [List.length_cons] at hlen ⊢; omega) hl' hr
      · rw [if_neg hk]
        have hba : key b ≤ key a := Nat.le_of_not_lt hk
        refine List.sorted_cons.mpr ⟨?_, ?_⟩
        · intro x hx
          rcases mergeByAux_mem key n (a :: l) r x hx with h | h
          · rcases List.mem_cons.mp h with h1 | h1
            · rw [h1]; exact hba
            · exact Nat.le_trans hba (ha x h1)
          · exact hb x h
        · exact ih (a :: l) r (by simp only [List.length_cons] at hlen ⊢; omega) hl hr'

/-- The merge sort produces a key-sorted list, given the fuel the entry
point supplies. -/
theorem mergeSortByAux_sorted (key : Matcher → Nat) :
    ∀ (n : Nat) (l : List Matcher), l.length ≤ n →
      List.Sorted (fun a b => key a ≤ key b) (mergeSortByAux key n l) := by
  intro n
  induction n with
  | zero =>
    intro l hlen
    have hl0 : l = [] := List.length_eq_zero.mp (by omega)
    subst hl0
    simpa [mergeSortByAux] using List.sorted_nil
  | succ n ih =>
    intro l hlen
    simp only [mergeSortByAux]
    by_cases h1 : l.length ≤ 1
    · rw [if_pos h1]
      match l, h1 with
      | [], _ => exact List.sorted_nil
      | [x], _ => exact List.sorted_singleton x
      | x :: y :: rest, h1 => simp at h1
    · rw [if_neg h1]
      simp only [mergeBy]
      apply mergeByAux_sorted
      · exact Nat.le_refl _
      · exact ih _ (by simp only [List.length_take]; omega)
      · exact ih _ (by simp only [List.length_drop]; omega)

/-- The child sort is key-sorted. -/
theorem sortMatchers_sorted (l : List Matcher) :
    List.Sorted (fun a b => matcherKey a ≤ matcherKey b) (sortMatchers l) :=
  mergeSortByAux_sorted matcherKey l.length l (Nat.le_refl _)

/-- A key-sorted list passes the non-decreasing chain check. -/
theorem keyChain_of_sorted (key : Matcher → Nat) :
    ∀ l : List Matcher, List.Sorted (fun a b => key a ≤ key b) l →
      keyChain key l = true := by
  intro l
  induction l with
  | nil => intro _; rfl
  | cons a l ih =>
    intro h
    rcases List.sorted_cons.mp h with ⟨ha, hl⟩
    match l, ha, hl, ih with
    | [], _, _, _ => rfl
    | b :: rest, ha, hl, ih =>
      simp only [keyChain, Bool.and_eq_true, decide_eq_true_eq]
      exact ⟨ha b (List.mem_cons_self _ _), ih hl⟩

/-- The member-wise reading of the recursive list check. -/
theorem wellSortedList_iff (cs : List Matcher) :
    wellSortedList cs = true ↔ ∀ x ∈ cs, wellSorted x = true := by
  induction cs with
  | nil => simp [wellSortedList]
  | cons c cs ih => simp [wellSortedList, ih]

/-- The AND tail preserves sortedness of a tree: its sorted-children
composite passes the check when every child does. -/
theorem mkTableCondFrom_wellSorted {cs : List Matcher}
    (h : wellSortedList cs = true) : wellSorted (mkTableCondFrom cs) = true := by
  match cs, h with
  | [], _ => rfl
  | [c], h => simpa [wellSortedList, mkTableCondFrom] using h
  | a :: b :: rest, h =>
    simp only [mkTableCondFrom, wellSorted, Bool.and_eq_true]
    exact ⟨keyChain_of_sorted matcherKey _ (sortMatchers_sorted _),
      (wellSortedList_iff _).mpr fun x hx =>
        (wellSortedList_iff _).mp h x (sortMatchers_mem hx)⟩

/-- The OR tail preserves sortedness of a tree. -/
theorem mkOrComposite_wellSorted {cs : List Matcher}
    (h : wellSortedList cs = true) : wellSorted (mkOrComposite cs) = true := by
  match cs, h with
  | [], _ => rfl
  | [c], h => simpa [wellSortedList, mkOrComposite] using h
  | a :: b :: rest, h =>
    simp only [mkOrComposite, wellSorted, Bool.and_eq_true]
    exact ⟨keyChain_of_sorted matcherKey _ (sortMatchers_sorted _),
      (wellSortedList_iff _).mpr fun x hx =>
        (wellSortedList_iff _).mp h x (sortMatchers_mem hx)⟩

/-- The sorted ElemMatch composite passes the check when every child
does. -/
theorem elemC_sort_wellSorted {cs : List Matcher}
    (h : wellSortedList cs = true) : wellSorted (.elemC (sortMatchers cs)) = true := by
  simp only [wellSorted, Bool.and_eq_true]
  exact ⟨keyChain_of_sorted matcherKey _ (sortMatchers_sorted _),
    (wellSortedList_iff _).mpr fun x hx =>
      (wellSortedList_iff _).mp h x (sortMatchers_mem hx)⟩

/-- The sorted Every composite passes the check when every child does. -/
theorem everyC_sort_wellSorted {cs : List Matcher}
    (h : wellSortedList cs = true) : wellSorted (.everyC (sortMatchers cs)) = true := by
  simp only [wellSorted, Bool.and_eq_true]
  exact ⟨keyChain_of_sorted matcherKey _ (sortMatchers_sorted _),
    (wellSortedList_iff _).mpr fun x hx =>
      (wellSortedList_iff _).mp h x (sortMatchers_mem hx)⟩

/-- A compiled `$in` matcher is a leaf, trivially sorted. -/
theorem compileInCond_wellSorted {v : MgValue} {m : Matcher}
    (h : compileInCond v = some m) : wellSorted m = true := by
  cases v
  case arr xs =>
    injection h with h
    subst h
    rfl
  all_goals exact Option.noConfusion h

/-- A compiled `$nin` matcher is a leaf, trivially sorted. -/
theorem compileNinCond_wellSorted {v : MgValue} {m : Matcher}
    (h : compileNinCond v = some m) : wellSorted m = true := by
  cases v
  case arr xs =>
    injection h with h
    subst h
    rfl
  all_goals exact Option.noConfusion h

/-- A compiled `$exists` matcher is a leaf, trivially sorted. -/
theorem compileExistsCond_wellSorted {v : MgValue} {m : Matcher}
    (h : compileExistsCond v = some m) : wellSorted m = true := by
  cases v
  case bool b =>
    injection h with h
    subst h
    rfl
  all_goals exact Option.noConfusion h

/-- A compiled `$present` matcher is a leaf, trivially sorted. -/
theorem compilePresentCond_wellSorted {v : MgValue} {m : Matcher}
    (h : compilePresentCond v = some m) : wellSorted m = true := by
  cases v
  case bool b =>
    injection h with h
    subst h
    rfl
  all_goals exact Option.noConfusion h

/-- A compiled `$regex` matcher is a leaf, trivially sorted. -/
theorem compileRegexCond_wellSorted {v : MgValue} {m : Matcher}
    (h : compileRegexCond v = some m) : wellSorted m = true := by
  cases v
  case str s =>
    injection h with h
    subst h
    rfl
  case regex p =>
    injection h with h
    subst h
    rfl
  all_goals exact Option.noConfusion h

/-- Every matcher any function of the compiler block can produce passes
the recursive sortedness check, jointly over all sixteen functions by
induction on the fuel. -/
theorem compile_wellSorted_all : ∀ n : Nat,
    (∀ k v m, compileSub n k v = some m → wellSorted m = true) ∧
    (∀ f c m, compileField n f c = some m → wellSorted m = true) ∧
    (∀ c m, compileDelegate n c = some m → wellSorted m = true) ∧
    (∀ c m, compileArrayRecord n c = some m → wellSorted m = true) ∧
    (∀ kvs m, compileTableCond n kvs = some m → wellSorted m = true) ∧
    (∀ kvs ms, compileEntries n kvs = some ms → wellSortedList ms = true) ∧
    (∀ v m, compileAndCond n v = some m → wellSorted m = true) ∧
    (∀ ts ms, compileAndTables n ts = some ms → wellSortedList ms = true) ∧
    (∀ v m, compileOrCond n v = some m → wellSorted m = true) ∧
    (∀ ts ms, compileOrTables n ts = some ms → wellSortedList ms = true) ∧
    (∀ v m, compileElemMatchCond n v = some m → wellSorted m = true) ∧
    (∀ es m, compileElemMatchEntries n es = some m → wellSorted m = true) ∧
    (∀ v m, compileEveryCond n v = some m → wellSorted m = true) ∧
    (∀ es m, compileEveryEntries n es = some m → wellSorted m = true) ∧
    (∀ v m, compileNotCond n v = some m → wellSorted m = true) ∧
    (∀ v m, compileSizeCond n v = some m → wellSorted m = true) := by
  intro n
  induction n with
  | zero =>
    exact ⟨fun _ _ _ h => Option.noConfusion h, fun _ _ _ h => Option.noConfusion h,
      fun _ _ h => Option.noConfusion h, fun _ _ h => Option.noConfusion h,
      fun _ _ h => Option.noConfusion h, fun _ _ h => Option.noConfusion h,
      fun _ _ h => Option.noConfusion h, fun _ _ h => Option.noConfusion h,
      fun _ _ h => Option.noConfusion h, fun _ _ h => Option.noConfusion h,
      fun _ _ h => Option.noConfusion h, fun _ _ h => Option.noConfusion h,
      fun _ _ h => Option.noConfusion h, fun _ _ h => Option.noConfusion h,
      fun _ _ h => Option.noConfusion h, fun _ _ h => Option.noConfusion h⟩
  | succ n ih =>
    obtain ⟨ihSub, ihField, ihDel, ihAR, ihTC, ihEnt, ihAnd, ihAndT, ihOr, ihOrT,
      ihEM, ihEME, ihEv, ihEvE, ihNot, ihSize⟩ := ih
    refine ⟨?_, ?_, ?_, ?_, ?_, ?_, ?_, ?_, ?_, ?_, ?_, ?_, ?_, ?_, ?_, ?_⟩
    · intro k v m h
      simp only [compileSub] at h
      by_cases h1 : headIsDollar k
      swap
      · rw [if_neg h1] at h
        exact ihField _ _ _ h
      rw [if_pos h1] at h
      by_cases h2 : k = "$in"
      · rw [if_pos h2] at h
        exact compileInCond_wellSorted h
      rw [if_neg h2] at h
      by_cases h3 : k = "$nin"
      · rw [if_pos h3] at h
        exact compileNinCond_wellSorted h
      rw [if_neg h3] at h
      by_cases h4 : k = "$eq"
      · rw [if_pos h4] at h
        injection h with h
        subst h
        rfl
      rw [if_neg h4] at h
      by_cases h5 : k = "$ne"
      · rw [if_pos h5] at h
        injection h with h
        subst h
        rfl
      rw [if_neg h5] at h
      by_cases h6 : k = "$gt"
      · rw [if_pos h6] at h
        injection h with h
        subst h
        rfl
      rw [if_neg h6] at h
      by_cases h7 : k = "$gte"
      · rw [if_pos h7] at h
        injection h with h
        subst h
        rfl
      rw [if_neg h7] at h
      by_cases h8 : k = "$lt"
      · rw [if_pos h8] at h
        injection h with h
        subst h
        rfl
      rw [if_neg h8] at h
      by_cases h9 : k = "$lte"
      · rw [if_pos h9] at h
        injection h with h
        subst h
        rfl
      rw [if_neg h9] at h
      by_cases h10 : k = "$exists"
      · rw [if_pos h10] at h
        exact compileExistsCond_wellSorted h
      rw [if_neg h10] at h
      by_cases h11 : k = "$present"
      · rw [if_pos h11] at h
        exact compilePresentCond_wellSorted h
      rw [if_neg h11] at h
      by_cases h12 : k = "$regex"
      · rw [if_pos h12] at h
        exact compileRegexCond_wellSorted h
      rw [if_neg h12] at h
      by_cases h13 : k = "$and"
      · rw [if_pos h13] at h
        exact ihAnd _ _ h
      rw [if_neg h13] at h
      by_cases h14 : k = "$or"
      · rw [if_pos h14] at h
        exact ihOr _ _ h
      rw [if_neg h14] at h
      by_cases h15 : k = "$elemMatch"
      · rw [if_pos h15] at h
        exact ihEM _ _ h
      rw [if_neg h15] at h
      by_cases h16 : k = "$every"
      · rw [if_pos h16] at h
        exact ihEv _ _ h
      rw [if_neg h16] at h
      by_cases h17 : k = "$not"
      · rw [if_pos h17] at h
        exact ihNot _ _ h
      rw [if_neg h17] at h
      by_cases h18 : k = "$size"
      · rw [if_pos h18] at h
        exact ihSize _ _ h
      rw [if_neg h18] at h
      exact ihField _ _ _ h
    · intro f c m h
      simp only [compileField] at h
      cases hd : compileDelegate n c with
      | none =>
        simp only [hd] at h
        exact Option.noConfusion h
      | some d =>
        simp only [hd] at h
        injection h with h
        subst h
        simp only [wellSorted, Bool.and_eq_true]
        refine ⟨ihDel _ _ hd, ?_⟩
        cases ha : compileArrayRecord n c with
        | none => rfl
        | some a => exact ihAR _ _ ha
    · intro c m h
      cases c
      case table kvs => exact ihTC _ _ h
      all_goals
        (injection h with h
         subst h
         rfl)
    · intro c m h
      cases c
      case table kvs =>
        simp only [compileArrayRecord] at h
        cases he : compileEntries n (parseSplit kvs).1 with
        | none =>
          simp only [he] at h
          exact Option.noConfusion h
        | some pcs =>
          simp only [he] at h
          by_cases hemp : (parseSplit kvs).2.isEmpty
          · rw [if_pos hemp] at h
            injection h with h
            subst h
            exact mkTableCondFrom_wellSorted (ihEnt _ _ he)
          · rw [if_neg hemp] at h
            cases hem : compileElemMatchEntries n (parseSplit kvs).2 with
            | none =>
              simp only [hem] at h
              exact Option.noConfusion h
            | some em =>
              simp only [hem] at h
              injection h with h
              subst h
              apply mkTableCondFrom_wellSorted
              rw [wellSortedList_iff]
              intro x hx
              rcases List.mem_append.mp hx with hx | hx
              · exact (wellSortedList_iff _).mp (ihEnt _ _ he) x hx
              · rw [List.mem_singleton.mp hx]
                exact ihEME _ _ hem
      case arr ys =>
        rw [compileArrayRecord_arr] at h
        injection h with h
        subst h
        simp [wellSorted, wellSortedList, keyChain, matcherKey, priority, prioritySum]
      case regex p =>
        simp only [compileArrayRecord, sortMatchers_single] at h
        injection h with h
        subst h
        rfl
      all_goals
        (simp only [compileArrayRecord, sortMatchers_single] at h
         injection h with h
         subst h
         rfl)
    · intro kvs m h
      simp only [compileTableCond] at h
      cases he : compileEntries n kvs with
      | none =>
        simp only [he] at h
        exact Option.noConfusion h
      | some cs =>
        simp only [he] at h
        injection h with h
        subst h
        exact mkTableCondFrom_wellSorted (ihEnt _ _ he)
    · intro kvs ms h
      cases kvs with
      | nil =>
        simp only [compileEntries] at h
        injection h with h
        subst h
        rfl
      | cons kv rest =>
        obtain ⟨k, v⟩ := kv
        simp only [compileEntries] at h
        cases hs : compileSub n k v with
        | none =>
          simp only [hs] at h
          exact Option.noConfusion h
        | some c =>
          simp only [hs] at h
          cases hr : compileEntries n rest with
          | none =>
            simp only [hr] at h
            exact Option.noConfusion h
          | some cs =>
            simp only [hr] at h
            injection h with h
            subst h
            simp only [wellSortedList, Bool.and_eq_true]
            exact ⟨ihSub _ _ _ hs, ihEnt _ _ hr⟩
    · intro v m h
      cases v
      case arr ts =>
        cases ts with
        | nil =>
          injection h with h
          subst h
          rfl
        | cons t ts =>
          cases t
          case table kvs =>
            simp only [compileAndCond] at h
            cases ha : compileAndTables n (.table kvs :: ts) with
            | none =>
              simp only [ha] at h
              exact Option.noConfusion h
            | some cs =>
              simp only [ha] at h
              injection h with h
              subst h
              exact mkTableCondFrom_wellSorted (ihAndT _ _ ha)
          all_goals exact Option.noConfusion h
      all_goals exact Option.noConfusion h
    · intro ts ms h
      cases ts with
      | nil =>
        injection h with h
        subst h
        rfl
      | cons t rest =>
        cases t
        case table kvs =>
          simp only [compileAndTables] at h
          cases he : compileEntries n kvs with
          | none =>
            simp only [he] at h
            exact Option.noConfusion h
          | some cs =>
            simp only [he] at h
            cases hr : compileAndTables n rest with
            | none =>
              simp only [hr] at h
              exact Option.noConfusion h
            | some rs =>
              simp only [hr] at h
              injection h with h
              subst h
              rw [wellSortedList_iff]
              intro x hx
              rcases List.mem_append.mp hx with hx | hx
              · exact (wellSortedList_iff _).mp (ihEnt _ _ he) x hx
              · exact (wellSortedList_iff _).mp (ihAndT _ _ hr) x hx
        all_goals exact Option.noConfusion h
    · intro v m h
      cases v
      case arr ts =>
        cases ts with
        | nil =>
          injection h with h
          subst h
          rfl
        | cons t ts =>
          cases t
          case table kvs =>
            simp only [compileOrCond] at h
            cases ho : compileOrTables n (.table kvs :: ts) with
            | none =>
              simp only [ho] at h
              exact Option.noConfusion h
            | some cs =>
              simp only [ho] at h
              injection h with h
              subst h
              exact mkOrComposite_wellSorted (ihOrT _ _ ho)
          all_goals exact Option.noConfusion h
      all_goals exact Option.noConfusion h
    · intro ts ms h
      cases ts with
      | nil =>
        injection h with h
        subst h
        rfl
      | cons t rest =>
        cases t
        case table kvs =>
          simp only [compileOrTables] at h
          cases ht : compileTableCond n kvs with
          | none =>
            simp only [ht] at h
            exact Option.noConfusion h
          | some c =>
            simp only [ht] at h
            cases hr : compileOrTables n rest with
            | none =>
              simp only [hr] at h
              exact Option.noConfusion h
            | some cs =>
              simp only [hr] at h
              injection h with h
              subst h
              simp only [wellSortedList, Bool.and_eq_true]
              exact ⟨ihTC _ _ ht, ihOrT _ _ hr⟩
        all_goals exact Option.noConfusion h
    · intro v m h
      cases v
      case table es => exact ihEME _ _ h
      all_goals exact Option.noConfusion h
    · intro es m h
      simp only [compileElemMatchEntries] at h
      cases he : compileEntries n es with
      | none =>
        simp only [he] at h
        exact Option.noConfusion h
      | some cs =>
        simp only [he] at h
        cases cs with
        | nil =>
          injection h with h
          subst h
          rfl
        | cons c cs =>
          injection h with h
          subst h
          exact elemC_sort_wellSorted (ihEnt _ _ he)
    · intro v m h
      cases v
      case table es => exact ihEvE _ _ h
      all_goals exact Option.noConfusion h
    · intro es m h
      simp only [compileEveryEntries] at h
      cases he : compileEntries n es with
      | none =>
        simp only [he] at h
        exact Option.noConfusion h
      | some cs =>
        simp only [he] at h
        cases cs with
        | nil =>
          injection h with h
          subst h
          rfl
        | cons c cs =>
          injection h with h
          subst h
          exact everyC_sort_wellSorted (ihEnt _ _ he)
    · intro v m h
      simp only [compileNotCond] at h
      cases hd : compileDelegate n v with
      | none =>
        simp only [hd] at h
        exact Option.noConfusion h
      | some d =>
        simp only [hd] at h
        injection h with h
        subst h
        simp only [wellSorted, Bool.and_eq_true]
        refine ⟨ihDel _ _ hd, ?_⟩
        cases ha : compileArrayRecord n v with
        | none => rfl
        | some a => exact ihAR _ _ ha
    · intro v m h
      simp only [compileSizeCond] at h
      cases hd : compileDelegate n v with
      | none =>
        simp only [hd] at h
        exact Option.noConfusion h
      | some d =>
        simp only [hd] at h
        injection h with h
        subst h
        simp only [wellSorted, Bool.and_eq_true]
        refine ⟨ihDel _ _ hd, ?_⟩
        cases ha : compileArrayRecord n v with
        | none => rfl
        | some a => exact ihAR _ _ ha

/-- C2 counterexample: the two field matchers compiled from the two
entries of the query `a: 1, b: 2` carry equal sort keys, yet the AND
composite holds them in the reverse of their insertion order: the merge
step takes the right run's element when no key is strictly smaller, so
the sort is not stable. -/
theorem c2_counterexample :
    matcherKey (.fieldM "a" (.eqM (.int 1)) (some (.elemC [.eqM (.int 1)]))) =
      matcherKey (.fieldM "b" (.eqM (.int 2)) (some (.elemC [.eqM (.int 2)]))) ∧
    compileTableCond 100 [("a", MgValue.int 1), ("b", MgValue.int 2)] =
      some (.andC [.fieldM "b" (.eqM (.int 2)) (some (.elemC [.eqM (.int 2)])),
        .fieldM "a" (.eqM (.int 1)) (some (.elemC [.eqM (.int 1)]))]) :=
  ⟨rfl, rfl⟩

/-- C2 as amended: at every fuel, any matcher the table-condition
compiler produces, and any matcher the query entry point produces, has
the children of every composite node in non-decreasing order of the
integer key priority * 10000; ties, however, do not keep the original
insertion order, because the merge step prefers the right run on equal
keys (see the counterexample above). -/
theorem c2_children_sorted :
    (∀ n kvs m, compileTableCond n kvs = some m → wellSorted m = true) ∧
    (∀ q m, compileQuery q = some m → wellSorted m = true) := by
  constructor
  · intro n kvs m h
    exact (compile_wellSorted_all n).2.2.2.2.1 kvs m h
  · intro q m h
    cases q
    case table kvs => exact (compile_wellSorted_all _).2.2.2.2.1 _ _ h
    all_goals exact Option.noConfusion h

/-- Closed instance of the sortedness invariant on the two-entry query
of the counterexample. -/
theorem c2_children_sorted_witness :
    compileTableCond 100 [("a", MgValue.int 1), ("b", MgValue.int 2)] =
      some (.andC [.fieldM "b" (.eqM (.int 2)) (some (.elemC [.eqM (.int 2)])),
        .fieldM "a" (.eqM (.int 1)) (some (.elemC [.eqM (.int 1)]))]) ∧
    wellSorted (.andC [.fieldM "b" (.eqM (.int 2)) (some (.elemC [.eqM (.int 2)])),
        .fieldM "a" (.eqM (.int 1)) (some (.elemC [.eqM (.int 1)]))]) = true :=
  ⟨rfl, c2_children_sorted.1 100 [("a", MgValue.int 1), ("b", MgValue.int 2)] _ rfl⟩
